import Mathlib

/-!
# Verification of the IntaRNA core against its specification

Shallow embedding of the core components of the IntaRNA repository:

* `IndexRangeList` (src/IndexRangeList.cpp): `covers` and `insert` over an
  ordered list of index ranges;
* `InteractionEnergy` (src/InteractionEnergy.h): `isAllowedLoopRegion`,
  `isValidInternalLoop`, scalar `getE` and the 4-lane `getE_SSE`;
* `InteractionEnergyBasePair` (src/InteractionEnergyBasePair.h):
  `getE_init`, `getBestE_interLoop`, `getE_interLeft`;
* `OutputHandlerInteractionList` (src/IntaRNA/OutputHandlerInteractionList.cpp):
  the bounded best-K store's `add` operation.

C++ `size_t` values are modelled as natural numbers together with explicit
`% 2^64` arithmetic where wrap-around matters; the floating point energy
type `E_type` is modelled as `ℚ` (exact arithmetic; all claims checked here
are about control flow and term structure, not rounding).
-/

namespace IntaRNA

/-- Word size of `size_t` (64-bit platform). -/
def sizeTMod : ℕ := 2 ^ 64

/-- `std::numeric_limits<size_t>::max()`. -/
def SIZE_MAX : ℕ := 2 ^ 64 - 1

/-- C++ unsigned subtraction `a - b` on `size_t` values (`a, b < 2^64`):
wraps around modulo `2^64`. -/
def subSizeT (a b : ℕ) : ℕ := (a + sizeTMod - b) % sizeTMod

/-- C++ unsigned addition `a + b` on `size_t` values, modulo `2^64`. -/
def addSizeT (a b : ℕ) : ℕ := (a + b) % sizeTMod

/-! ## IndexRange

The `IndexRange` class itself lives in `IndexRange.h`, which is not part of
the provided sources; only its fields and ordering are needed here. -/

/-- An index range `[from,to]`; C++ fields `from`/`to` are named
`fr`/`to` (`from` is a Lean keyword). -/
structure IndexRange where
  fr : ℕ
  toI : ℕ
  deriving DecidableEq, Repr

/-- Modelled from the spec: `IndexRange.h` is not under src/; the spec (§4.1)
states "Total order: lexicographic on `(from, to)`". This is the C++
`operator<` used by `std::upper_bound` in `IndexRangeList`. -/
def IndexRange.lt (a b : IndexRange) : Bool :=
  decide (a.fr < b.fr) || (decide (a.fr = b.fr) && decide (a.toI < b.toI))

/-- The non-strict counterpart of [[IndexRange.lt]], used to state
"sorted ascending by `(from, to)`". -/
def IndexRange.leP (a b : IndexRange) : Prop :=
  a.fr < b.fr ∨ (a.fr = b.fr ∧ a.toI ≤ b.toI)

instance (a b : IndexRange) : Decidable (IndexRange.leP a b) :=
  inferInstanceAs (Decidable (a.fr < b.fr ∨ (a.fr = b.fr ∧ a.toI ≤ b.toI)))

namespace IndexRangeList

/-! ## IndexRangeList (src/IndexRangeList.cpp)

The list member is modelled directly as `List IndexRange`. -/

/-- `IndexRangeList::covers` (src/IndexRangeList.cpp:30-47).
`std::upper_bound(begin, end, IndexRange(index, SIZE_MAX))` on a list sorted
by the lexicographic order returns the first element strictly greater than
the probe; on a sorted list this is the boundary of
`takeWhile (fun r => ¬ probe < r)`.  If no range precedes that position the
result is `false`, otherwise the preceding range `r` is inspected via
`index <= r.toI`. -/
def covers (l : List IndexRange) (index : ℕ) : Bool :=
  -- quick check
  if l.isEmpty then
    false
  else
    -- find first range with begin > index; inspect its predecessor
    match (l.takeWhile fun r => ! IndexRange.lt ⟨index, SIZE_MAX⟩ r).getLast? with
    | none => false
    | some r => decide (index ≤ r.toI)

/-- `IndexRangeList::insert` (src/IndexRangeList.cpp:69-90).
An empty list receives the range directly (`push_back`); otherwise the range
is inserted at the position `std::upper_bound` finds, i.e. before the first
stored range strictly greater than it. -/
def insert (range : IndexRange) (l : List IndexRange) : List IndexRange :=
  match l with
  | [] => [range]
  | x :: xs => if IndexRange.lt range x then range :: x :: xs else x :: insert range xs

/-- Consecutive ranges are disjoint and in ascending order:
`prev.to < next.from` for every adjacent pair. -/
def disjointAsc : List IndexRange → Prop
  | [] => True
  | [_] => True
  | a :: b :: t => a.toI < b.fr ∧ disjointAsc (b :: t)

instance instDecDisjointAsc : (l : List IndexRange) → Decidable (disjointAsc l)
  | [] => Decidable.isTrue trivial
  | [_] => Decidable.isTrue trivial
  | _ :: b :: t => @instDecidableAnd _ _ _ (instDecDisjointAsc (b :: t))

/-- The shape of a list produced by a sequence of ascending, non-overlapping
`push_back` calls (src/IndexRangeList.cpp:51-65): every range is ascending
(`from <= to`), its `to` fits in `size_t`, and consecutive ranges are
disjoint and in ascending order (`prev.toI < next.from`). -/
def validPushBackList (l : List IndexRange) : Prop :=
  (∀ r ∈ l, r.fr ≤ r.toI ∧ r.toI < sizeTMod) ∧ disjointAsc l

instance (l : List IndexRange) : Decidable (validPushBackList l) :=
  inferInstanceAs
    (Decidable ((∀ r ∈ l, r.fr ≤ r.toI ∧ r.toI < sizeTMod) ∧ disjointAsc l))

end IndexRangeList

/-! ## InteractionEnergy (src/InteractionEnergy.h)

The energy type `E_type` (a C++ float) is modelled as `ℚ`.  The infinite
sentinel `E_INF` and the predicate `E_isNotINF` are defined in `general.h`,
which is not part of the provided sources; they are passed as an explicit
parameter / modelled from the spec below. -/

/-- Modelled from the spec: `E_isNotINF` lives in `general.h`, which is not
under src/.  The spec (§6) states that an "infinite" energy value represents
"forbidden/unreachable" and that "a predicate distinguishes finite from
infinite values"; hence a value is not infinite exactly when it differs from
the sentinel. -/
def E_isNotINF (E_INF e : ℚ) : Bool := decide (e ≠ E_INF)

/-- The virtual hooks of the abstract `InteractionEnergy` class that are
reached from `getE` / `getE_SSE` (src/InteractionEnergy.h:140-345).
`getED1`/`getED2` read the external accessibility providers;
`getPr_danglingLeft`/`getPr_danglingRight` are virtual members whose default
implementation (src/InteractionEnergy.h:750-820) clamps a Boltzmann weight
(a transcendental `exp`); both `getE` and `getE_SSE` treat all of these as
opaque per-index calls, so they are fields here. -/
structure EnergyModel where
  getED1 : ℕ → ℕ → ℚ
  getED2 : ℕ → ℕ → ℚ
  getE_danglingLeft : ℕ → ℕ → ℚ
  getE_danglingRight : ℕ → ℕ → ℚ
  getE_endLeft : ℕ → ℕ → ℚ
  getE_endRight : ℕ → ℕ → ℚ
  getPr_danglingLeft : ℕ → ℕ → ℕ → ℕ → ℚ
  getPr_danglingRight : ℕ → ℕ → ℕ → ℕ → ℚ

namespace InteractionEnergy

/-- `InteractionEnergy::getE` (src/InteractionEnergy.h:824-851): if the
hybridization energy is not infinite, the overall energy is the sum of
`hybridE`, the two accessibility penalties, the two dangling-end penalties
each weighted by the probability that the ends are unpaired, and the two
helix closure penalties; otherwise `E_INF`. -/
def getE (E_INF : ℚ) (m : EnergyModel) (i1 j1 i2 j2 : ℕ) (hybridE : ℚ) : ℚ :=
  if E_isNotINF E_INF hybridE then
    hybridE
      + m.getED1 i1 j1
      + m.getED2 i2 j2
      + (m.getE_danglingLeft i1 i2 * m.getPr_danglingLeft i1 j1 i2 j2)
      + (m.getE_danglingRight j1 j2 * m.getPr_danglingRight i1 j1 i2 j2)
      + m.getE_endLeft i1 i2
      + m.getE_endRight j1 j2
  else
    E_INF

/-- `InteractionEnergy::getE_SSE` (src/InteractionEnergy.h:855-902): the
four lanes of each `__m128` argument are modelled as `Fin 4 → _`.  The code
fills the component vectors lane by lane with the scalar hook calls, adds
them as `((ed1+ed2)+endL)+endR` plus `dl*PrL + dr*PrR`, and then blends the
sum with `E_INF` through the per-lane compare/and/andnot/or select on
`hybridE == E_INF`.  Note that `hybridE` itself is never added to the sum. -/
def getE_SSE (E_INF : ℚ) (m : EnergyModel)
    (i1 j1 i2 j2 : Fin 4 → ℕ) (hybridE : Fin 4 → ℚ) : Fin 4 → ℚ :=
  let ed1 := fun k => m.getED1 (i1 k) (j1 k)
  let ed2 := fun k => m.getED2 (i2 k) (j2 k)
  let danglingLeftE := fun k => m.getE_danglingLeft (i1 k) (i2 k)
  let danglingLeftPr := fun k => m.getPr_danglingLeft (i1 k) (j1 k) (i2 k) (j2 k)
  let danglingRightE := fun k => m.getE_danglingRight (j1 k) (j2 k)
  let danglingRightPr := fun k => m.getPr_danglingRight (i1 k) (j1 k) (i2 k) (j2 k)
  let endLeftE := fun k => m.getE_endLeft (i1 k) (i2 k)
  let endRightE := fun k => m.getE_endRight (j1 k) (j2 k)
  let result := fun k =>
    (((ed1 k + ed2 k) + endLeftE k) + endRightE k)
      + (danglingLeftE k * danglingLeftPr k + danglingRightE k * danglingRightPr k)
  fun k => if hybridE k = E_INF then E_INF else result k

end InteractionEnergy

/-- The construction-time state of an `InteractionEnergy` object that is
reached from `isValidInternalLoop` (src/InteractionEnergy.h:460-510): the
two sequences (through the accessibility providers; a sequence is its
character string), the externally supplied base-complementarity test
`RnaSequence::areComplementary`, and the two maximal internal loop sizes. -/
structure SeqModel where
  seq1 : List Char
  seq2 : List Char
  areCompl : ℕ → ℕ → Bool
  maxInternalLoopSize1 : ℕ
  maxInternalLoopSize2 : ℕ

namespace InteractionEnergy

/-- `InteractionEnergy::isAllowedLoopRegion` (src/InteractionEnergy.h:546-559):
both indices in bounds, neither position an ambiguous base `N`, `i <= j`,
and `(j-i) <= (1+maxInternalLoopSize)` in `size_t` arithmetic.
(`seq.asString().at(i)` is only reached after `i < seq.size()` holds, so the
`getD` default is never the decisive value.) -/
def isAllowedLoopRegion (seq : List Char) (i j maxInternalLoopSize : ℕ) : Bool :=
  decide (i < seq.length)
    && decide (j < seq.length)
    && (seq.getD i 'N' != 'N')
    && (seq.getD j 'N' != 'N')
    && decide (i ≤ j)
    && decide (subSizeT j i ≤ addSizeT 1 maxInternalLoopSize)

/-- `InteractionEnergy::isValidInternalLoop` (src/InteractionEnergy.h:593-605):
`(j1-i1>0 && j2-i2>0)` in `size_t` arithmetic, both closing pairs
complementary, and both `[i1,j1]` and `[i2,j2]` allowed loop regions under
their sequence's own bound. -/
def isValidInternalLoop (m : SeqModel) (i1 j1 i2 j2 : ℕ) : Bool :=
  (decide (0 < subSizeT j1 i1) && decide (0 < subSizeT j2 i2))
    && m.areCompl i1 i2
    && m.areCompl j1 j2
    && isAllowedLoopRegion m.seq1 i1 j1 m.maxInternalLoopSize1
    && isAllowedLoopRegion m.seq2 i2 j2 m.maxInternalLoopSize2

/-- The claim's (and the function's own doc comment's,
src/InteractionEnergy.h:494-508) version of `isValidInternalLoop`: both
closing pairs complementary, both regions allowed, and either both spans
zero or both strictly positive
(`(j1-i1==0 && j2-i2==0) || (j1-i1>0 && j2-i2>0)`). -/
def isValidInternalLoopClaimed (m : SeqModel) (i1 j1 i2 j2 : ℕ) : Bool :=
  ((decide (subSizeT j1 i1 = 0) && decide (subSizeT j2 i2 = 0))
      || (decide (0 < subSizeT j1 i1) && decide (0 < subSizeT j2 i2)))
    && m.areCompl i1 i2
    && m.areCompl j1 j2
    && isAllowedLoopRegion m.seq1 i1 j1 m.maxInternalLoopSize1
    && isAllowedLoopRegion m.seq2 i2 j2 m.maxInternalLoopSize2

end InteractionEnergy

namespace InteractionEnergyBasePair

/-- `InteractionEnergyBasePair::getE_init` (src/InteractionEnergyBasePair.h:225-231). -/
def getE_init : ℚ := -1

/-- `InteractionEnergyBasePair::getBestE_interLoop`
(src/InteractionEnergyBasePair.h:279-285): returns `getE_init()`. -/
def getBestE_interLoop : ℚ := getE_init

/-- `InteractionEnergyBasePair::getE_interLeft`
(src/InteractionEnergyBasePair.h:235-253): `getBestE_interLoop()` for a
valid internal loop, `E_INF` otherwise. -/
def getE_interLeft (E_INF : ℚ) (m : SeqModel) (i1 j1 i2 j2 : ℕ) : ℚ :=
  if InteractionEnergy.isValidInternalLoop m i1 j1 i2 j2 then
    getBestE_interLoop
  else
    E_INF

end InteractionEnergyBasePair

/-! ## OutputHandlerInteractionList (src/IntaRNA/OutputHandlerInteractionList.cpp)

The `Interaction` class and the comparator `lessThan_StorageContainer` live
in headers that are not part of the provided sources.  An interaction is
modelled by the two facets `add` inspects: its `isEmpty()` flag and its
position in the comparator's total order, the latter collapsed into a single
rational rank key. -/

/-- Modelled from the spec: `Interaction` (external entity, spec §3) is "a
set of paired index positions ... plus an associated energy" with an
`isEmpty()` test; the bounded store ranks interactions "by a total order
(lower energy = better, ties broken by a fixed secondary key over
interaction coordinates)" (spec §4.5), so an interaction is modelled as its
`isEmpty` flag together with its rank key. -/
structure Interaction where
  isEmpty : Bool
  rank : ℚ
  deriving DecidableEq, Repr

/-- Modelled from the spec: the comparator `lessThan_StorageContainer`
(declared in `OutputHandlerInteractionList.h`, not under src/) realizes the
total order of spec §4.5; on the rank-key model it is the strict order on
rank keys. -/
def lessThan_StorageContainer (x y : Interaction) : Bool :=
  decide (x.rank < y.rank)

/-- The mutable state of an `OutputHandlerInteractionList`: the sorted
bounded storage and the cumulative count of reported interactions. -/
structure OutputHandlerState where
  storage : List Interaction
  reportedInteractions : ℕ
  deriving DecidableEq, Repr

namespace OutputHandlerInteractionList

/-- `OutputHandlerInteractionList::add(const Interaction &)`
(src/IntaRNA/OutputHandlerInteractionList.cpp:32-89), one serialized call.

* An empty interaction only increments the report counter.
* Otherwise the counter is incremented and storage is updated when it is
  not yet full or the candidate ranks strictly better than the worst
  (last) stored entry.  `std::lower_bound` on the sorted storage yields the
  first entry not ranking below the candidate, i.e. the boundary of
  `takeWhile (fun y => y < x)`; an equal-ranked entry there makes the
  candidate a discarded duplicate.
* On insertion at capacity the code steps `insertPos` back when it sits on
  the last element, deletes the last element, and steps forward again; in
  every reachable case the net storage effect is dropping the last element
  and placing the candidate at the lower-bound position, i.e.
  `pre ++ x :: post.dropLast` (the guard guarantees the candidate ranks
  strictly below the last element, so `post` contains it).
* The C++ condition dereferences `storage.rbegin()` only after
  `storage.size() < maxToStore` failed; for `maxToStore = 0` and empty
  storage that dereference is undefined behaviour, rendered here as
  `false` (no update). -/
def add (maxToStore : ℕ) (st : OutputHandlerState) (x : Interaction) : OutputHandlerState :=
  if x.isEmpty then
    { st with reportedInteractions := st.reportedInteractions + 1 }
  else
    let s := st.storage
    let n := st.reportedInteractions + 1
    if decide (s.length < maxToStore)
        || (match s.getLast? with
            | some w => lessThan_StorageContainer x w
            | none => false) then
      let pre := s.takeWhile fun y => lessThan_StorageContainer y x
      let post := s.dropWhile fun y => lessThan_StorageContainer y x
      if (match post.head? with
          | none => true
          | some y => lessThan_StorageContainer x y) then
        if decide (maxToStore ≤ s.length) then
          ⟨pre ++ x :: post.dropLast, n⟩
        else
          ⟨pre ++ x :: post, n⟩
      else
        ⟨s, n⟩
    else
      ⟨s, n⟩

/-- A coarser summary of an interaction as a pair of index ranges
(external entity, spec §4.5/§7; `InteractionRange.h` is not under src/). -/
structure InteractionRange where
  r1 : IndexRange
  r2 : IndexRange
  deriving DecidableEq, Repr

/-- `OutputHandlerInteractionList::add(const InteractionRange &)`
(src/IntaRNA/OutputHandlerInteractionList.cpp:93-98).  Modelled from the
spec for the body: the `INTARNA_NOT_IMPLEMENTED` macro is defined in
`general.h`, not under src/; the spec (§4.5, §7) demands an explicit
"unsupported operation" failure, so the overload is embedded as a fallible
function that always returns the error and never a successor state. -/
def addRange (_st : OutputHandlerState) (_range : InteractionRange) :
    Except String OutputHandlerState :=
  Except.error "OutputHandlerInteractionList::add( const InteractionRange & range )"

end OutputHandlerInteractionList

/-! ### Specification-side description of the bounded store

The spec (§4.5) characterizes the retained content as the best `K` distinct
interactions ever reported, ranked ascending.  `insDistinct` inserts a rank
key into an ascending duplicate-free list of rank keys, and `bestDistinct`
accumulates a whole report sequence. -/

/-- Insert a rank key into a strictly ascending list, keeping it strictly
ascending and duplicate-free. -/
def insDistinct (q : ℚ) : List ℚ → List ℚ
  | [] => [q]
  | a :: as =>
    if q < a then q :: a :: as
    else if q = a then a :: as
    else a :: insDistinct q as

/-- All distinct rank keys of a report sequence, in ascending order. -/
def bestDistinct (l : List ℚ) : List ℚ :=
  l.foldl (fun acc q => insDistinct q acc) []

/-- The storage effect of [[OutputHandlerInteractionList.add]] expressed on
the list of rank keys alone; `add` reads an interaction only through
`isEmpty` and the comparator, so its storage update factors through this
function (proved in [[add_storage_map_rank]]). -/
def addRank (maxToStore : ℕ) (s : List ℚ) (q : ℚ) : List ℚ :=
  if decide (s.length < maxToStore)
      || (match s.getLast? with
          | some w => decide (q < w)
          | none => false) then
    let pre := s.takeWhile fun y => decide (y < q)
    let post := s.dropWhile fun y => decide (y < q)
    if (match post.head? with
        | none => true
        | some y => decide (q < y)) then
      if decide (maxToStore ≤ s.length) then pre ++ q :: post.dropLast
      else pre ++ q :: post
    else s
  else s

/-! ### Concrete fixtures used by counterexamples and witnesses -/

/-- A small sequence model: two three-base sequences without ambiguous
bases, a complementarity test that always succeeds, and the default
maximal internal loop sizes (16). -/
def mDemo : SeqModel :=
  { seq1 := ['G', 'G', 'G']
  , seq2 := ['C', 'C', 'C']
  , areCompl := fun _ _ => true
  , maxInternalLoopSize1 := 16
  , maxInternalLoopSize2 := 16 }

/-- An energy model with constant, position-independent contributions:
`ED1 = 2`, `ED2 = 3`, dangling energies `1` with probabilities `1`,
end penalties `4` and `5`; every finite overall energy is the hybridization
energy plus `16`. -/
def mConst : EnergyModel :=
  { getED1 := fun _ _ => 2
  , getED2 := fun _ _ => 3
  , getE_danglingLeft := fun _ _ => 1
  , getE_danglingRight := fun _ _ => 1
  , getE_endLeft := fun _ _ => 4
  , getE_endRight := fun _ _ => 5
  , getPr_danglingLeft := fun _ _ _ _ => 1
  , getPr_danglingRight := fun _ _ _ _ => 1 }

/-- Report sequence for the bounded store: five non-empty interactions with
distinct energies (5, 2, 4, 1, 3), one empty interaction and one duplicate
of rank 2. -/
def reportsDemo : List Interaction :=
  [⟨false, 5⟩, ⟨false, 2⟩, ⟨true, 9⟩, ⟨false, 4⟩, ⟨false, 2⟩, ⟨false, 1⟩, ⟨false, 3⟩]

end IntaRNA

namespace IntaRNA

/-! # Theorems -/

/-! ## The scalar energy combinator -/

/-- **C5.** For all indices `i1,j1,i2,j2` and every energy value `hybridE`,
`getE(i1,j1,i2,j2,hybridE)` returns the infinite sentinel when `hybridE` is
the infinite sentinel, and otherwise returns
`hybridE + ED1(i1,j1) + ED2(i2,j2)
 + danglingLeft(i1,i2)·Pr_danglingLeft(i1,j1,i2,j2)
 + danglingRight(j1,j2)·Pr_danglingRight(i1,j1,i2,j2)
 + endLeft(i1,i2) + endRight(j1,j2)`;
the dangling-end terms enter as expected values weighted by their
probabilities, not unconditionally. -/
theorem getE_formula (E_INF : ℚ) (m : EnergyModel) (i1 j1 i2 j2 : ℕ) (hybridE : ℚ) :
    InteractionEnergy.getE E_INF m i1 j1 i2 j2 hybridE
      = if hybridE = E_INF then E_INF
        else
          hybridE + m.getED1 i1 j1 + m.getED2 i2 j2
            + m.getE_danglingLeft i1 i2 * m.getPr_danglingLeft i1 j1 i2 j2
            + m.getE_danglingRight j1 j2 * m.getPr_danglingRight i1 j1 i2 j2
            + m.getE_endLeft i1 i2 + m.getE_endRight j1 j2 := by
  by_cases h : hybridE = E_INF <;>
    simp [InteractionEnergy.getE, E_isNotINF, h]

/-! ## The vectorized energy combinator -/

/-- **C1 (counterexample).** The vector path does not agree with the scalar
path lane by lane: with all component energies constant (model `mConst`,
finite component sum `16`) and hybridization energies
`(1, 1, E_INF, 1)`, the scalar `getE` yields `17` on lane 0's inputs while
lane 0 of `getE_SSE` yields `16` — `getE_SSE` drops `hybridE` from the sum
of every finite lane.  The infinite lane 2 does propagate to `E_INF` in
that lane only, matching the scalar result there, and the remaining finite
lanes are unaffected by it. -/
theorem getE_SSE_lane_mismatch :
    InteractionEnergy.getE_SSE 1000000 mConst
        (fun _ => 0) (fun _ => 0) (fun _ => 0) (fun _ => 0)
        (fun k => if k = 2 then 1000000 else 1) 0 = 16
    ∧ InteractionEnergy.getE 1000000 mConst 0 0 0 0 1 = 17
    ∧ InteractionEnergy.getE_SSE 1000000 mConst
        (fun _ => 0) (fun _ => 0) (fun _ => 0) (fun _ => 0)
        (fun k => if k = 2 then 1000000 else 1) 2 = 1000000
    ∧ InteractionEnergy.getE 1000000 mConst 0 0 0 0 1000000 = 1000000
    ∧ InteractionEnergy.getE_SSE 1000000 mConst
        (fun _ => 0) (fun _ => 0) (fun _ => 0) (fun _ => 0)
        (fun k => if k = 2 then 1000000 else 1) 1 = 16
    ∧ InteractionEnergy.getE_SSE 1000000 mConst
        (fun _ => 0) (fun _ => 0) (fun _ => 0) (fun _ => 0)
        (fun k => if k = 2 then 1000000 else 1) 3 = 16 := by
  refine ⟨?_, ?_, ?_, ?_, ?_, ?_⟩ <;>
    norm_num [InteractionEnergy.getE_SSE, InteractionEnergy.getE, E_isNotINF, mConst] <;>
    decide

/-! ## Internal loop validity -/

/-- **C2 (counterexample).** With both spans zero (`i1 = j1`, `i2 = j2`),
complementary closing pairs and allowed loop regions, the code's
`isValidInternalLoop` returns `false`, while the claim — and the doc
comment of the function itself (src/InteractionEnergy.h:494-508) — require
`true` for matching zero-width spans. -/
theorem isValidInternalLoop_zero_span_denied :
    InteractionEnergy.isValidInternalLoop mDemo 0 0 0 0 = false
    ∧ InteractionEnergy.isValidInternalLoopClaimed mDemo 0 0 0 0 = true := by
  decide

/-- An allowed loop region has ascending boundaries
(src/InteractionEnergy.h:556, conjunct `i <= j`). -/
theorem isAllowedLoopRegion_le {seq : List Char} {i j M : ℕ}
    (h : InteractionEnergy.isAllowedLoopRegion seq i j M = true) : i ≤ j := by
  simp only [InteractionEnergy.isAllowedLoopRegion, Bool.and_eq_true,
    decide_eq_true_eq] at h
  exact h.1.2

/-- A valid internal loop has ascending boundary spans in both sequences. -/
theorem isValidInternalLoop_le {m : SeqModel} {i1 j1 i2 j2 : ℕ}
    (h : InteractionEnergy.isValidInternalLoop m i1 j1 i2 j2 = true) :
    i1 ≤ j1 ∧ i2 ≤ j2 := by
  simp only [InteractionEnergy.isValidInternalLoop, Bool.and_eq_true] at h
  exact ⟨isAllowedLoopRegion_le h.1.2, isAllowedLoopRegion_le h.2⟩

/-- **C10.** For in-bounds indices forming a descending span (`j1 < i1` or
`j2 < i2`), the unsigned subtractions `j1-i1` resp. `j2-i2` wrap around to
strictly positive values, so the `(j1-i1>0 && j2-i2>0)` guard does not
reject the input; nevertheless `isValidInternalLoop` is `false` — the
`i <= j` conjunct of the allowed-loop-region check rejects the descending
span — and `getE_interLeft` therefore returns the infinite sentinel. -/
theorem descending_span_rejected (m : SeqModel) (E_INF : ℚ) (i1 j1 i2 j2 : ℕ)
    (hlen1 : m.seq1.length ≤ sizeTMod) (hlen2 : m.seq2.length ≤ sizeTMod)
    (hi1 : i1 < m.seq1.length) (hj1 : j1 < m.seq1.length)
    (hi2 : i2 < m.seq2.length) (hj2 : j2 < m.seq2.length)
    (hdesc : j1 < i1 ∨ j2 < i2) :
    ((j1 < i1 → 0 < subSizeT j1 i1) ∧ (j2 < i2 → 0 < subSizeT j2 i2))
    ∧ InteractionEnergy.isValidInternalLoop m i1 j1 i2 j2 = false
    ∧ InteractionEnergyBasePair.getE_interLeft E_INF m i1 j1 i2 j2 = E_INF := by
  have hfalse : InteractionEnergy.isValidInternalLoop m i1 j1 i2 j2 = false := by
    cases hv : InteractionEnergy.isValidInternalLoop m i1 j1 i2 j2
    · rfl
    · exfalso
      obtain ⟨h1, h2⟩ := isValidInternalLoop_le hv
      rcases hdesc with h | h <;> omega
  refine ⟨⟨?_, ?_⟩, hfalse, ?_⟩
  · intro h
    simp only [subSizeT, sizeTMod] at hlen1 hlen2 ⊢
    omega
  · intro h
    simp only [subSizeT, sizeTMod] at hlen1 hlen2 ⊢
    omega
  · unfold InteractionEnergyBasePair.getE_interLeft
    rw [hfalse]
    simp

/-- Witness for [[descending_span_rejected]] at the concrete input
`i1 = 1, j1 = 0, i2 = 0, j2 = 1` in the demo sequence model. -/
theorem descending_span_rejected_witness :
    (mDemo.seq1.length ≤ sizeTMod ∧ mDemo.seq2.length ≤ sizeTMod
      ∧ 1 < mDemo.seq1.length ∧ 0 < mDemo.seq1.length
      ∧ 0 < mDemo.seq2.length ∧ 1 < mDemo.seq2.length
      ∧ ((0 : ℕ) < 1 ∨ (1 : ℕ) < 0))
    ∧ (((0 < 1 → 0 < subSizeT 0 1) ∧ (1 < 0 → 0 < subSizeT 1 0))
        ∧ InteractionEnergy.isValidInternalLoop mDemo 1 0 0 1 = false
        ∧ InteractionEnergyBasePair.getE_interLeft 1000000 mDemo 1 0 0 1 = 1000000) :=
  ⟨by decide,
    descending_span_rejected mDemo 1000000 1 0 0 1 (by decide) (by decide)
      (by decide) (by decide) (by decide) (by decide) (by decide)⟩

/-! ## The base-pair energy model -/

/-- **C3.** `InteractionEnergyBasePair::getE_interLeft(i1,j1,i2,j2)` equals
`-1` (which is `getBestE_interLoop()`) exactly when
`isValidInternalLoop(i1,j1,i2,j2)` holds, and equals the infinite sentinel
otherwise — for every index combination, provided only that the sentinel
differs from the finite gain `-1`. -/
theorem getE_interLeft_eq_neg_one_iff (E_INF : ℚ) (m : SeqModel)
    (i1 j1 i2 j2 : ℕ) (hE : E_INF ≠ -1) :
    (InteractionEnergyBasePair.getE_interLeft E_INF m i1 j1 i2 j2 = -1
        ↔ InteractionEnergy.isValidInternalLoop m i1 j1 i2 j2 = true)
    ∧ (InteractionEnergy.isValidInternalLoop m i1 j1 i2 j2 = false
        → InteractionEnergyBasePair.getE_interLeft E_INF m i1 j1 i2 j2 = E_INF) := by
  unfold InteractionEnergyBasePair.getE_interLeft
    InteractionEnergyBasePair.getBestE_interLoop InteractionEnergyBasePair.getE_init
  cases h : InteractionEnergy.isValidInternalLoop m i1 j1 i2 j2 <;>
    simp [h, hE]

/-- Witness for [[getE_interLeft_eq_neg_one_iff]]: sentinel `1000000`,
demo model, boundaries `(0,1,0,1)` (a valid internal loop). -/
theorem getE_interLeft_eq_neg_one_iff_witness :
    ((1000000 : ℚ) ≠ -1)
    ∧ ((InteractionEnergyBasePair.getE_interLeft 1000000 mDemo 0 1 0 1 = -1
          ↔ InteractionEnergy.isValidInternalLoop mDemo 0 1 0 1 = true)
        ∧ (InteractionEnergy.isValidInternalLoop mDemo 0 1 0 1 = false
          → InteractionEnergyBasePair.getE_interLeft 1000000 mDemo 0 1 0 1 = 1000000)) :=
  ⟨by decide, getE_interLeft_eq_neg_one_iff 1000000 mDemo 0 1 0 1 (by decide)⟩

/-! ## IndexRangeList: sorted insertion -/

/-- If the strict lexicographic comparison `a < b` fails, then `b ≤ a`
lexicographically (totality of the range order). -/
theorem IndexRange.leP_of_not_lt {a b : IndexRange}
    (h : IndexRange.lt a b = false) : IndexRange.leP b a := by
  rcases a with ⟨af, aT⟩
  rcases b with ⟨bf, bT⟩
  simp only [IndexRange.lt, Bool.or_eq_false_iff, Bool.and_eq_false_iff,
    decide_eq_false_iff_not] at h
  show bf < af ∨ (bf = af ∧ bT ≤ aT)
  rcases h with ⟨h1, h2 | h2⟩ <;> omega

/-- The strict lexicographic comparison implies the non-strict order. -/
theorem IndexRange.leP_of_lt {a b : IndexRange}
    (h : IndexRange.lt a b = true) : IndexRange.leP a b := by
  rcases a with ⟨af, aT⟩
  rcases b with ⟨bf, bT⟩
  simp only [IndexRange.lt, Bool.or_eq_true, Bool.and_eq_true,
    decide_eq_true_eq] at h
  show af < bf ∨ (af = bf ∧ aT ≤ bT)
  rcases h with h | ⟨h1, h2⟩ <;> omega

/-- Transitivity of the non-strict lexicographic order on ranges. -/
theorem IndexRange.leP_trans {a b c : IndexRange}
    (hab : IndexRange.leP a b) (hbc : IndexRange.leP b c) :
    IndexRange.leP a c := by
  rcases a with ⟨af, aT⟩
  rcases b with ⟨bf, bT⟩
  rcases c with ⟨cf, cT⟩
  obtain hab : af < bf ∨ (af = bf ∧ aT ≤ bT) := hab
  obtain hbc : bf < cf ∨ (bf = cf ∧ bT ≤ cT) := hbc
  show af < cf ∨ (af = cf ∧ aT ≤ cT)
  rcases hab with h | ⟨h1, h2⟩ <;> rcases hbc with h3 | ⟨h3, h4⟩ <;> omega

/-- **C8.** Inserting an ascending range into a list sorted ascending by
`(from, to)` yields a list containing all previous elements plus the new
range (a permutation of `range :: l`) that is again sorted ascending by
`(from, to)`, wherever the range falls relative to the prior contents. -/
theorem insert_sorted_perm (range : IndexRange) (l : List IndexRange)
    (_hasc : range.fr ≤ range.toI) (hsort : l.Pairwise IndexRange.leP) :
    (IndexRangeList.insert range l).Perm (range :: l)
    ∧ (IndexRangeList.insert range l).Pairwise IndexRange.leP := by
  induction l with
  | nil =>
    simp [IndexRangeList.insert]
  | cons x xs ih =>
    rw [List.pairwise_cons] at hsort
    obtain ⟨hx, hxs⟩ := hsort
    obtain ⟨ihp, ihs⟩ := ih hxs
    show ((if IndexRange.lt range x then range :: x :: xs
            else x :: IndexRangeList.insert range xs).Perm (range :: x :: xs))
      ∧ (if IndexRange.lt range x then range :: x :: xs
            else x :: IndexRangeList.insert range xs).Pairwise IndexRange.leP
    by_cases h : IndexRange.lt range x = true
    · rw [if_pos h]
      refine ⟨List.Perm.refl _, ?_⟩
      refine List.Pairwise.cons ?_ (List.Pairwise.cons hx hxs)
      intro y hy
      rcases List.mem_cons.mp hy with rfl | hy
      · exact IndexRange.leP_of_lt h
      · exact IndexRange.leP_trans (IndexRange.leP_of_lt h) (hx y hy)
    · have hf : IndexRange.lt range x = false := by
        cases hv : IndexRange.lt range x
        · rfl
        · exact absurd hv h
      rw [if_neg h]
      constructor
      · exact List.Perm.trans (List.Perm.cons x ihp) (List.Perm.swap range x xs)
      · refine List.Pairwise.cons ?_ ihs
        intro y hy
        rcases List.mem_cons.mp (ihp.mem_iff.mp hy) with rfl | hyx
        · exact IndexRange.leP_of_not_lt hf
        · exact hx y hyx

/-- Witness for [[insert_sorted_perm]]: inserting `(2,3)` between `(0,1)`
and `(4,6)`. -/
theorem insert_sorted_perm_witness :
    ((IndexRange.mk 2 3).fr ≤ (IndexRange.mk 2 3).toI
      ∧ ([⟨0, 1⟩, ⟨4, 6⟩] : List IndexRange).Pairwise IndexRange.leP)
    ∧ ((IndexRangeList.insert ⟨2, 3⟩ [⟨0, 1⟩, ⟨4, 6⟩]).Perm
          ((⟨2, 3⟩ : IndexRange) :: [⟨0, 1⟩, ⟨4, 6⟩])
        ∧ (IndexRangeList.insert ⟨2, 3⟩ [⟨0, 1⟩, ⟨4, 6⟩]).Pairwise IndexRange.leP) :=
  ⟨⟨by decide, by decide⟩,
    insert_sorted_perm ⟨2, 3⟩ [⟨0, 1⟩, ⟨4, 6⟩] (by decide) (by decide)⟩

/-! ## IndexRangeList: coverage queries -/

/-- A valid push_back list stays valid after dropping its head. -/
theorem valid_tail {a : IndexRange} {l : List IndexRange}
    (h : IndexRangeList.validPushBackList (a :: l)) :
    IndexRangeList.validPushBackList l := by
  obtain ⟨hmem, hch⟩ := h
  refine ⟨fun r hr => hmem r (List.mem_cons_of_mem a hr), ?_⟩
  cases l with
  | nil => trivial
  | cons b t => exact hch.2

/-- In a valid push_back list, the head's `to` lies strictly below the
`from` of every later range. -/
theorem valid_head_lt {a : IndexRange} {l : List IndexRange}
    (h : IndexRangeList.validPushBackList (a :: l)) :
    ∀ r ∈ l, a.toI < r.fr := by
  induction l generalizing a with
  | nil => intro r hr; cases hr
  | cons b t ihb =>
    intro r hr
    obtain ⟨hmem, hch⟩ := h
    have hab : a.toI < b.fr := hch.1
    rcases List.mem_cons.mp hr with rfl | hrt
    · exact hab
    · have hb : b.fr ≤ b.toI := (hmem b (by simp)).1
      have := ihb (a := b) ⟨fun s hs => hmem s (List.mem_cons_of_mem a hs),
        hch.2⟩ r hrt
      omega

/-- Evaluating the lexicographic comparison against the probe
`(x, SIZE_MAX)`: since every stored `to` fits in `size_t`, the tie-break
disjunct is impossible and the probe is below a range exactly when `x` is
below its `from`. -/
theorem probe_lt_eval {r : IndexRange} (x : ℕ) (hr : r.toI < sizeTMod) :
    IndexRange.lt ⟨x, SIZE_MAX⟩ r = decide (x < r.fr) := by
  rcases r with ⟨f, t⟩
  simp only [sizeTMod] at hr
  show (decide (x < f) || (decide (x = f) && decide (t > SIZE_MAX))) = decide (x < f)
  rw [show decide (t > SIZE_MAX) = false from decide_eq_false (by
      simp only [SIZE_MAX]; omega)]
  rw [Bool.and_false, Bool.or_false]

/-- The `takeWhile` predicate of `covers` keeps exactly the ranges whose
`from` does not exceed the probe index. -/
theorem probe_keep_eval {r : IndexRange} (x : ℕ) (hr : r.toI < sizeTMod) :
    (! IndexRange.lt ⟨x, SIZE_MAX⟩ r) = decide (r.fr ≤ x) := by
  rw [probe_lt_eval x hr]
  by_cases h : x < r.fr
  · rw [decide_eq_true h, decide_eq_false (by omega)]
    rfl
  · rw [decide_eq_false h, decide_eq_true (by omega)]
    rfl

/-- Unfolding `covers` on a non-empty list. -/
theorem covers_cons (a : IndexRange) (t : List IndexRange) (x : ℕ) :
    IndexRangeList.covers (a :: t) x
      = match ((a :: t).takeWhile fun r => ! IndexRange.lt ⟨x, SIZE_MAX⟩ r).getLast? with
        | none => false
        | some r => decide (x ≤ r.toI) :=
  rfl

/-- **C6.** For every list built by ascending, non-overlapping `push_back`
calls and every index `x` — endpoints, gap indices and the empty list
included — `covers(x)` is `true` exactly when `x` lies within `[from,to]`
of some stored range. -/
theorem covers_iff_mem (l : List IndexRange) (x : ℕ)
    (hv : IndexRangeList.validPushBackList l) :
    IndexRangeList.covers l x = true ↔ ∃ r ∈ l, r.fr ≤ x ∧ x ≤ r.toI := by
  revert hv
  induction l with
  | nil =>
    intro hv
    simp [IndexRangeList.covers]
  | cons a t ih =>
    intro hv
    have hvt := valid_tail hv
    have hlt := valid_head_lt hv
    have ha : a.fr ≤ a.toI ∧ a.toI < sizeTMod := hv.1 a (by simp)
    rw [covers_cons, List.takeWhile_cons, probe_keep_eval x ha.2]
    by_cases hax : a.fr ≤ x
    · rw [decide_eq_true hax, if_pos rfl]
      cases htw : t.takeWhile fun r => ! IndexRange.lt ⟨x, SIZE_MAX⟩ r with
      | nil =>
        -- the head is the last range starting at or before x
        simp only [List.getLast?_singleton]
        constructor
        · intro hcov
          exact ⟨a, by simp, hax, of_decide_eq_true hcov⟩
        · rintro ⟨r, hr, hr1, hr2⟩
          rcases List.mem_cons.mp hr with rfl | hrt
          · exact decide_eq_true hr2
          · -- impossible: every range of t starts beyond x
            exfalso
            cases t with
            | nil => cases hrt
            | cons b t2 =>
              have hb2 : b.toI < sizeTMod := (hvt.1 b (by simp)).2
              rw [List.takeWhile_cons, probe_keep_eval x hb2] at htw
              by_cases hbx : b.fr ≤ x
              · rw [decide_eq_true hbx] at htw
                cases htw
              · have hbf : ∀ s ∈ t2, b.toI < s.fr := valid_head_lt hvt
                have hbasc : b.fr ≤ b.toI := (hvt.1 b (by simp)).1
                rcases List.mem_cons.mp hrt with rfl | hrt2
                · omega
                · have := hbf r hrt2
                  omega
      | cons c tw2 =>
        -- the last kept range lies in the tail: defer to the tail list
        rw [List.getLast?_cons_cons]
        cases t with
        | nil => cases htw
        | cons b t2 =>
          have hb2 : b.toI < sizeTMod := (hvt.1 b (by simp)).2
          have hbx : b.fr ≤ x := by
            rw [List.takeWhile_cons, probe_keep_eval x hb2] at htw
            by_cases h : b.fr ≤ x
            · exact h
            · rw [decide_eq_false h] at htw
              cases htw
          have hcovt :
              IndexRangeList.covers (b :: t2) x
                = match (c :: tw2).getLast? with
                  | none => false
                  | some r => decide (x ≤ r.toI) := by
            rw [covers_cons, htw]
          rw [← hcovt]
          constructor
          · intro hcc
            obtain ⟨r, hrt, h1, h2⟩ := (ih hvt).mp hcc
            exact ⟨r, List.mem_cons_of_mem a hrt, h1, h2⟩
          · rintro ⟨r, hr, h1, h2⟩
            apply (ih hvt).mpr
            rcases List.mem_cons.mp hr with rfl | hrt
            · exfalso
              have hab : r.toI < b.fr := hlt b (by simp)
              omega
            · exact ⟨r, hrt, h1, h2⟩
    · rw [decide_eq_false hax, if_neg (by decide)]
      simp only [List.getLast?_nil]
      constructor
      · intro hfalse
        cases hfalse
      · rintro ⟨r, hr, hr1, hr2⟩
        exfalso
        rcases List.mem_cons.mp hr with rfl | hrt
        · omega
        · have := hlt r hrt
          omega

/-- Witness for [[covers_iff_mem]]: index `6` inside the second of two
stored ranges. -/
theorem covers_iff_mem_witness :
    IndexRangeList.validPushBackList [⟨0, 2⟩, ⟨5, 7⟩]
    ∧ (IndexRangeList.covers [⟨0, 2⟩, ⟨5, 7⟩] 6 = true
        ↔ ∃ r ∈ ([⟨0, 2⟩, ⟨5, 7⟩] : List IndexRange), r.fr ≤ 6 ∧ 6 ≤ r.toI) :=
  ⟨by decide, covers_iff_mem [⟨0, 2⟩, ⟨5, 7⟩] 6 (by decide)⟩

/-! ## The bounded best-K store: frame and error cases -/

/-- **C7.** Reporting an empty interaction increments the cumulative
reported-interaction count by one and leaves the stored sequence completely
unchanged. -/
theorem add_empty_counts_only (maxToStore : ℕ) (st : OutputHandlerState)
    (x : Interaction) (hx : x.isEmpty = true) :
    OutputHandlerInteractionList.add maxToStore st x
      = ⟨st.storage, st.reportedInteractions + 1⟩ := by
  simp [OutputHandlerInteractionList.add, hx]

/-- Witness for [[add_empty_counts_only]]: an empty interaction reported to
a store holding one interaction. -/
theorem add_empty_counts_only_witness :
    (Interaction.mk true 9).isEmpty = true
    ∧ OutputHandlerInteractionList.add 3 ⟨[⟨false, 1⟩], 4⟩ ⟨true, 9⟩
        = ⟨[⟨false, 1⟩], 5⟩ :=
  ⟨rfl, add_empty_counts_only 3 ⟨[⟨false, 1⟩], 4⟩ ⟨true, 9⟩ rfl⟩

/-- **C9.** Reporting an `InteractionRange` always fails with the explicit
not-implemented error naming the unsupported operation; the overload never
produces a successor state, so storage and counter are untouched. -/
theorem addRange_not_implemented (st : OutputHandlerState)
    (range : OutputHandlerInteractionList.InteractionRange) :
    OutputHandlerInteractionList.addRange st range
      = Except.error "OutputHandlerInteractionList::add( const InteractionRange & range )" :=
  rfl

/-! ## The bounded best-K store: the retained-content invariant -/

/-- Dropping the last element of a full `take` shortens it by one. -/
theorem dropLast_take {l : List ℚ} {n : ℕ} (h : n ≤ l.length) :
    (l.take n).dropLast = l.take (n - 1) := by
  rw [List.dropLast_eq_take, List.take_take, List.length_take]
  congr 1
  omega

/-- `addRank` on the empty storage: the candidate enters iff there is room. -/
theorem addRank_nil (K : ℕ) (q : ℚ) :
    addRank K [] q = if 0 < K then [q] else [] := by
  cases K with
  | zero => rfl
  | succ n => simp [addRank]

/-- Peeling a head that ranks strictly below the candidate off the storage:
`addRank` keeps it in place and operates on the tail with one slot less. -/
theorem addRank_cons_of_lt (K : ℕ) (a q : ℚ) (t : List ℚ) (h : a < q) :
    addRank (K + 1) (a :: t) q = a :: addRank K t q := by
  have hna : ¬ q < a := not_lt.mpr h.le
  simp only [addRank, List.length_cons]
  rw [List.takeWhile_cons, List.dropWhile_cons, decide_eq_true h, if_pos rfl, if_pos rfl]
  simp only [show decide (t.length + 1 < K + 1) = decide (t.length < K) from
      decide_eq_decide.mpr (by omega),
    show decide (K + 1 ≤ t.length + 1) = decide (K ≤ t.length) from
      decide_eq_decide.mpr (by omega)]
  cases t with
  | nil =>
    simp only [List.getLast?_singleton, List.getLast?_nil, List.length_nil,
      List.takeWhile_nil, List.dropWhile_nil, List.head?_nil, List.dropLast_nil]
    rw [decide_eq_false hna]
    by_cases hK : 0 < K <;> simp [hK]
  | cons b t2 =>
    simp only [List.getLast?_cons_cons, List.length_cons]
    by_cases hC : (decide (t2.length + 1 < K)
        || match (b :: t2).getLast? with
           | some w => decide (q < w)
           | none => false) = true
    · rw [if_pos hC, if_pos hC]
      by_cases hD : (match ((b :: t2).dropWhile fun y => decide (y < q)).head? with
          | none => true
          | some y => decide (q < y)) = true
      · rw [if_pos hD, if_pos hD]
        by_cases hE : K ≤ t2.length + 1
        · rw [if_pos (by rw [decide_eq_true hE]), if_pos (by rw [decide_eq_true hE])]
          rw [List.cons_append]
        · rw [if_neg (by rw [decide_eq_false hE]; decide),
            if_neg (by rw [decide_eq_false hE]; decide)]
          rw [List.cons_append]
      · rw [if_neg hD, if_neg hD]
    · rw [if_neg hC, if_neg hC]

/-- The central step lemma: on a bounded view `D.take K` of the strictly
ascending list `D` of all distinct rank keys seen so far, the storage
update of `add` behaves exactly like distinct insertion into `D` followed
by re-bounding — the code's capacity test, duplicate test and eviction
implement `(insDistinct q D).take K`. -/
theorem addRank_take (q : ℚ) :
    ∀ (D : List ℚ), D.Pairwise (· < ·) → ∀ K : ℕ,
      addRank K (D.take K) q = (insDistinct q D).take K := by
  intro D
  induction D with
  | nil =>
    intro _ K
    cases K with
    | zero => rfl
    | succ n => simp [addRank_nil, insDistinct]
  | cons a D2 ih =>
    intro hp K
    have ha : ∀ b ∈ D2, a < b := (List.pairwise_cons.mp hp).1
    have hp2 : D2.Pairwise (· < ·) := (List.pairwise_cons.mp hp).2
    cases K with
    | zero => rfl
    | succ K2 =>
      rw [List.take_succ_cons]
      rcases lt_trichotomy q a with hqa | hqa | hqa
      · -- the candidate ranks before the whole list
        have hpa : ¬ ((fun y : ℚ => decide (y < q)) a = true) :=
          fun hh => absurd (of_decide_eq_true hh) (not_lt.mpr hqa.le)
        have hins : insDistinct q (a :: D2) = q :: a :: D2 := by
          unfold insDistinct
          rw [if_pos hqa]
        rw [hins, List.take_succ_cons]
        by_cases hlen : (a :: D2.take K2).length < K2 + 1
        · -- room left: everything is kept
          have hD2 : D2.length < K2 := by
            simp only [List.length_cons, List.length_take] at hlen
            omega
          have htk : D2.take K2 = D2 := List.take_of_length_le (by omega)
          rw [htk]
          have htw0 : List.takeWhile (fun y : ℚ => decide (y < q)) (a :: D2) = [] :=
            List.takeWhile_cons_of_neg hpa
          have hdw0 : List.dropWhile (fun y : ℚ => decide (y < q)) (a :: D2) = a :: D2 :=
            List.dropWhile_cons_of_neg hpa
          simp only [addRank, List.length_cons, htw0, hdw0, List.head?_cons]
          rw [show decide (D2.length + 1 < K2 + 1) = true from decide_eq_true (by omega),
            Bool.true_or, if_pos rfl]
          rw [show decide (q < a) = true from decide_eq_true hqa, if_pos rfl]
          rw [show decide (K2 + 1 ≤ D2.length + 1) = false from decide_eq_false (by omega),
            if_neg (show ¬ false = true by decide)]
          rw [List.take_of_length_le
            (show (a :: D2).length ≤ K2 by simp only [List.length_cons]; omega)]
          simp
        · -- storage full: the worst element is evicted
          have hD2 : K2 ≤ D2.length := by
            simp only [List.length_cons, List.length_take] at hlen
            omega
          obtain ⟨w, hw⟩ : ∃ w, (a :: D2.take K2).getLast? = some w := by
            cases hgl : (a :: D2.take K2).getLast? with
            | none => exact absurd (List.getLast?_eq_none_iff.mp hgl) (by simp)
            | some w => exact ⟨w, rfl⟩
          have hqw : q < w := by
            have hmem : w ∈ a :: D2.take K2 := List.mem_of_getLast?_eq_some hw
            rcases List.mem_cons.mp hmem with rfl | hmem2
            · exact hqa
            · exact hqa.trans (ha w (List.mem_of_mem_take hmem2))
          have htw0 : List.takeWhile (fun y : ℚ => decide (y < q)) (a :: D2.take K2) = [] :=
            List.takeWhile_cons_of_neg hpa
          have hdw0 : List.dropWhile (fun y : ℚ => decide (y < q)) (a :: D2.take K2)
              = a :: D2.take K2 :=
            List.dropWhile_cons_of_neg hpa
          simp only [addRank, List.length_cons, htw0, hdw0, List.head?_cons, hw]
          rw [show decide (q < w) = true from decide_eq_true hqw, Bool.or_true,
            if_pos rfl]
          rw [show decide (q < a) = true from decide_eq_true hqa, if_pos rfl]
          rw [show decide (K2 + 1 ≤ (D2.take K2).length + 1) = true from
              decide_eq_true (by simp only [List.length_take]; omega), if_pos rfl]
          cases K2 with
          | zero => simp
          | succ K3 =>
            rw [List.take_succ_cons,
              List.dropLast_cons_of_ne_nil (List.ne_nil_of_length_pos (by
                simp only [List.length_take]; omega)),
              dropLast_take (by omega)]
            simp
      · -- the candidate duplicates the head: storage unchanged
        have haa : ¬ (a < q) := by
          rw [hqa]
          exact lt_irrefl a
        have hpa : ¬ ((fun y : ℚ => decide (y < q)) a = true) :=
          fun hh => absurd (of_decide_eq_true hh) haa
        have hins : insDistinct q (a :: D2) = a :: D2 := by
          unfold insDistinct
          rw [if_neg (by rw [hqa]; exact lt_irrefl a), if_pos hqa]
        rw [hins, List.take_succ_cons]
        have htw0 : List.takeWhile (fun y : ℚ => decide (y < q)) (a :: D2.take K2) = [] :=
          List.takeWhile_cons_of_neg hpa
        have hdw0 : List.dropWhile (fun y : ℚ => decide (y < q)) (a :: D2.take K2)
            = a :: D2.take K2 :=
          List.dropWhile_cons_of_neg hpa
        simp only [addRank, List.length_cons, htw0, hdw0, List.head?_cons]
        rw [show decide (q < a) = false from decide_eq_false (by
            rw [hqa]; exact lt_irrefl a)]
        by_cases hC : (decide ((D2.take K2).length + 1 < K2 + 1)
            || match (a :: D2.take K2).getLast? with
               | some w => decide (q < w)
               | none => false) = true
        · rw [if_pos hC, if_neg (show ¬ false = true by decide)]
        · rw [if_neg hC]
      · -- the candidate ranks after the head: recurse into the tail
        have hins : insDistinct q (a :: D2) = a :: insDistinct q D2 := by
          unfold insDistinct
          rw [if_neg (not_lt.mpr hqa.le), if_neg (ne_of_gt hqa)]
          cases D2 <;> rfl
        rw [hins, List.take_succ_cons, addRank_cons_of_lt K2 a q _ hqa, ih hp2 K2]

/-- `add` reads a non-empty interaction only through the rank comparator,
so its storage effect factors through `addRank` on the stored rank keys,
and the report counter increments by one. -/
theorem add_storage_map_rank (maxToStore : ℕ) (st : OutputHandlerState)
    (x : Interaction) (hx : x.isEmpty = false) :
    (OutputHandlerInteractionList.add maxToStore st x).storage.map Interaction.rank
      = addRank maxToStore (st.storage.map Interaction.rank) x.rank
    ∧ (OutputHandlerInteractionList.add maxToStore st x).reportedInteractions
      = st.reportedInteractions + 1 := by
  have htw : (st.storage.map Interaction.rank).takeWhile (fun y => decide (y < x.rank))
      = (st.storage.takeWhile fun y => decide (y.rank < x.rank)).map Interaction.rank :=
    List.takeWhile_map _ _ _
  have hdw : (st.storage.map Interaction.rank).dropWhile (fun y => decide (y < x.rank))
      = (st.storage.dropWhile fun y => decide (y.rank < x.rank)).map Interaction.rank :=
    List.dropWhile_map _ _ _
  constructor
  · simp only [OutputHandlerInteractionList.add, hx, lessThan_StorageContainer]
    rw [if_neg (show ¬ false = true by decide)]
    simp only [addRank, List.length_map, List.getLast?_map, htw, hdw, List.head?_map]
    cases hgl : st.storage.getLast? with
    | none =>
      simp only [Option.map_none']
      by_cases hC : (decide (st.storage.length < maxToStore) || false) = true
      · rw [if_pos hC, if_pos hC]
        cases hhd : (st.storage.dropWhile fun y => decide (y.rank < x.rank)).head? with
        | none =>
          simp only [Option.map_none']
          rw [if_pos trivial, if_pos trivial]
          by_cases hE : decide (maxToStore ≤ st.storage.length) = true
          · rw [if_pos hE, if_pos hE]
            simp [List.map_dropLast]
          · rw [if_neg hE, if_neg hE]
            simp
        | some y =>
          simp only [Option.map_some']
          by_cases hD : decide (x.rank < y.rank) = true
          · rw [if_pos hD, if_pos hD]
            by_cases hE : decide (maxToStore ≤ st.storage.length) = true
            · rw [if_pos hE, if_pos hE]
              simp [List.map_dropLast]
            · rw [if_neg hE, if_neg hE]
              simp
          · rw [if_neg hD, if_neg hD]
      · rw [if_neg hC, if_neg hC]
    | some w =>
      simp only [Option.map_some']
      by_cases hC : (decide (st.storage.length < maxToStore)
          || decide (x.rank < w.rank)) = true
      · rw [if_pos hC, if_pos hC]
        cases hhd : (st.storage.dropWhile fun y => decide (y.rank < x.rank)).head? with
        | none =>
          simp only [Option.map_none']
          rw [if_pos trivial, if_pos trivial]
          by_cases hE : decide (maxToStore ≤ st.storage.length) = true
          · rw [if_pos hE, if_pos hE]
            simp [List.map_dropLast]
          · rw [if_neg hE, if_neg hE]
            simp
        | some y =>
          simp only [Option.map_some']
          by_cases hD : decide (x.rank < y.rank) = true
          · rw [if_pos hD, if_pos hD]
            by_cases hE : decide (maxToStore ≤ st.storage.length) = true
            · rw [if_pos hE, if_pos hE]
              simp [List.map_dropLast]
            · rw [if_neg hE, if_neg hE]
              simp
          · rw [if_neg hD, if_neg hD]
      · rw [if_neg hC, if_neg hC]
  · simp only [OutputHandlerInteractionList.add, hx]
    rw [if_neg (show ¬ false = true by decide)]
    split
    · split
      · split <;> rfl
      · rfl
    · rfl

/-- Membership in a distinct insertion. -/
theorem insDistinct_mem {q y : ℚ} :
    ∀ {D : List ℚ}, y ∈ insDistinct q D ↔ y = q ∨ y ∈ D := by
  intro D
  induction D with
  | nil => simp [insDistinct]
  | cons a t ih =>
    unfold insDistinct
    by_cases h1 : q < a
    · rw [if_pos h1]
      simp [List.mem_cons]
    · rw [if_neg h1]
      by_cases h2 : q = a
      · rw [if_pos h2]
        subst h2
        simp only [List.mem_cons]
        tauto
      · rw [if_neg h2]
        simp only [List.mem_cons, ih]
        tauto

/-- Distinct insertion preserves strict sortedness. -/
theorem insDistinct_pairwise {q : ℚ} :
    ∀ {D : List ℚ}, D.Pairwise (· < ·) → (insDistinct q D).Pairwise (· < ·) := by
  intro D
  induction D with
  | nil =>
    intro _
    simp [insDistinct]
  | cons a t ih =>
    intro hp
    obtain ⟨ha, ht⟩ := List.pairwise_cons.mp hp
    unfold insDistinct
    by_cases h1 : q < a
    · rw [if_pos h1]
      refine List.Pairwise.cons ?_ hp
      intro y hy
      rcases List.mem_cons.mp hy with rfl | hy
      · exact h1
      · exact h1.trans (ha y hy)
    · rw [if_neg h1]
      by_cases h2 : q = a
      · rw [if_pos h2]
        exact hp
      · rw [if_neg h2]
        have haq : a < q := lt_of_le_of_ne (not_lt.mp h1) (Ne.symm h2)
        refine List.Pairwise.cons ?_ (ih ht)
        intro y hy
        rcases insDistinct_mem.mp hy with rfl | hy
        · exact haq
        · exact ha y hy

/-- Folding reports into the store tracks `take K` of the ascending list of
distinct rank keys of the non-empty reports processed so far. -/
theorem foldl_add_bestK (maxToStore : ℕ) :
    ∀ (reports : List Interaction) (st : OutputHandlerState) (D : List ℚ),
      D.Pairwise (· < ·) →
      st.storage.map Interaction.rank = D.take maxToStore →
      (reports.foldl (OutputHandlerInteractionList.add maxToStore) st).storage.map
          Interaction.rank
        = (reports.foldl (fun acc x => cond x.isEmpty acc (insDistinct x.rank acc))
              D).take maxToStore := by
  intro reports
  induction reports with
  | nil =>
    intro st D _ hst
    simpa using hst
  | cons r rest ih =>
    intro st D hD hst
    simp only [List.foldl_cons]
    cases hr : r.isEmpty with
    | true =>
      simp only [hr, cond_true]
      apply ih _ D hD
      have hempty : OutputHandlerInteractionList.add maxToStore st r
          = ⟨st.storage, st.reportedInteractions + 1⟩ := by
        simp [OutputHandlerInteractionList.add, hr]
      rw [hempty]
      exact hst
    | false =>
      simp only [hr, cond_false]
      obtain ⟨hs, -⟩ := add_storage_map_rank maxToStore st r hr
      apply ih _ (insDistinct r.rank D) (insDistinct_pairwise hD)
      rw [hs, hst]
      exact addRank_take r.rank D hD maxToStore

/-- Folding the conditional insertion over raw reports equals folding plain
insertion over the filtered non-empty reports' rank keys. -/
theorem foldl_cond_filter (reports : List Interaction) :
    ∀ D : List ℚ,
      reports.foldl (fun acc x => cond x.isEmpty acc (insDistinct x.rank acc)) D
        = ((reports.filter fun x => !x.isEmpty).map Interaction.rank).foldl
            (fun acc q => insDistinct q acc) D := by
  induction reports with
  | nil =>
    intro D
    rfl
  | cons r rest ih =>
    intro D
    simp only [List.foldl_cons, List.filter_cons]
    cases hr : r.isEmpty with
    | true => simp [hr, ih]
    | false => simp [hr, ih]

/-- `bestDistinct` produces a strictly ascending list. -/
theorem bestDistinct_pairwise (l : List ℚ) : (bestDistinct l).Pairwise (· < ·) := by
  suffices h : ∀ D : List ℚ, D.Pairwise (· < ·) →
      (l.foldl (fun acc q => insDistinct q acc) D).Pairwise (· < ·) from
    h [] List.Pairwise.nil
  induction l with
  | nil =>
    intro D hD
    simpa using hD
  | cons a t ih =>
    intro D hD
    simp only [List.foldl_cons]
    exact ih _ (insDistinct_pairwise hD)

/-- **C4.** For any serialized finite sequence of `add` calls starting from
an empty store of capacity `maxToStore > 0`, the storage afterwards holds
exactly the `min(maxToStore, number of distinct rank keys reported)`
best-ranked distinct non-empty interactions in ascending rank order: its
rank keys are `take maxToStore` of the ascending duplicate-free list of all
reported non-empty rank keys — in particular reporting a duplicate rank key
never grows the storage, and with `maxToStore = 3` five distinct-energy
reports retain the three lowest in ascending order. -/
theorem add_retains_bestK (maxToStore : ℕ) (_hK : 0 < maxToStore)
    (reports : List Interaction) :
    (reports.foldl (OutputHandlerInteractionList.add maxToStore)
          ⟨[], 0⟩).storage.map Interaction.rank
      = (bestDistinct ((reports.filter fun x => !x.isEmpty).map
            Interaction.rank)).take maxToStore
    ∧ ((reports.foldl (OutputHandlerInteractionList.add maxToStore)
          ⟨[], 0⟩).storage.map Interaction.rank).Pairwise (· < ·) := by
  have h1 : (reports.foldl (OutputHandlerInteractionList.add maxToStore)
        ⟨[], 0⟩).storage.map Interaction.rank
      = (bestDistinct ((reports.filter fun x => !x.isEmpty).map
          Interaction.rank)).take maxToStore := by
    unfold bestDistinct
    rw [← foldl_cond_filter]
    exact foldl_add_bestK maxToStore reports ⟨[], 0⟩ [] List.Pairwise.nil (by simp)
  refine ⟨h1, ?_⟩
  rw [h1]
  exact (bestDistinct_pairwise _).take

/-- Witness for [[add_retains_bestK]]: capacity 3, five non-empty reports
with distinct energies 5, 2, 4, 1, 3, one duplicate of 2 and one empty
report; the retained rank keys are exactly `[1, 2, 3]`. -/
theorem add_retains_bestK_witness :
    (0 < 3)
    ∧ ((reportsDemo.foldl (OutputHandlerInteractionList.add 3)
            ⟨[], 0⟩).storage.map Interaction.rank
        = (bestDistinct ((reportsDemo.filter fun x => !x.isEmpty).map
              Interaction.rank)).take 3
      ∧ ((reportsDemo.foldl (OutputHandlerInteractionList.add 3)
            ⟨[], 0⟩).storage.map Interaction.rank).Pairwise (· < ·)) :=
  ⟨by decide, add_retains_bestK 3 (by decide) reportsDemo⟩

end IntaRNA

section Examples
open IntaRNA

example : IndexRangeList.covers [⟨0, 2⟩, ⟨5, 7⟩] 6 = true := by decide
example : IndexRangeList.covers [⟨0, 2⟩, ⟨5, 7⟩] 3 = false := by decide
example : IndexRangeList.covers [⟨0, 2⟩, ⟨5, 7⟩] 2 = true := by decide
example : IndexRangeList.covers [⟨0, 2⟩, ⟨5, 7⟩] 5 = true := by decide
example : IndexRangeList.covers [] 0 = false := by decide
example : IndexRangeList.covers [⟨0, 2⟩, ⟨5, 7⟩] 8 = false := by decide
example : IndexRangeList.insert ⟨3, 4⟩ [⟨0, 2⟩, ⟨5, 7⟩] = [⟨0, 2⟩, ⟨3, 4⟩, ⟨5, 7⟩] := by decide

example : InteractionEnergy.isValidInternalLoop mDemo 0 1 0 1 = true := by decide
example : InteractionEnergy.isValidInternalLoop mDemo 1 0 1 0 = false := by decide
example : InteractionEnergyBasePair.getE_interLeft 1000000 mDemo 0 1 0 1 = -1 := by decide

example :
    reportsDemo.foldl (OutputHandlerInteractionList.add 3) ⟨[], 0⟩
      = ⟨[⟨false, 1⟩, ⟨false, 2⟩, ⟨false, 3⟩], 7⟩ := by decide

example :
    (bestDistinct ((reportsDemo.filter fun x => !x.isEmpty).map Interaction.rank)).take 3
      = [1, 2, 3] := by decide

end Examples
